import Mathlib

/-!
# Skew heap (`skew_heap.cpp`): embedding and verified properties

The C++ class `Heap` is a node with three pointer fields: `int* root`, `Heap* left`,
`Heap* right`.  A value of the Lean type `Heap` stands for a value of type `Heap*`:
`Heap.null` is `NULL`, and `Heap.node k l r` is a pointer to an object whose `root` field
is `k` (`none` for `NULL`) and whose children are `l` and `r`.

Keys are C++ `int`s.  The program only compares and copies them, it never does arithmetic
on them, so they are embedded as `Int`.

Dereferencing a `NULL` pointer (`*this->root` with `root == NULL`, or a field access through
a `NULL` object pointer) is a failure of the operation: the operations return `Option`, and
`none` is that failure.  `merge` tests `this == NULL` itself, so a `NULL` receiver is an
ordinary input of `merge`.

`merge` never writes to its operands, and every subtree of an operand is linked at most
once in the result, so the objects reachable from a handle always form a tree and a pointer
to a node inside it is the same thing as a position (a path of left/right steps).
-/

namespace SkewHeap

/-- A value of type `Heap*`: `NULL`, or a pointer to an object with fields `root`, `left`, `right`. -/
inductive Heap where
  | null : Heap
  | node (root : Option Int) (left : Heap) (right : Heap) : Heap
deriving DecidableEq

open Heap

/-- Number of objects reachable from a pointer (used as the termination measure of `merge`). -/
def size : Heap → Nat
  | null => 0
  | node _ l r => size l + size r + 1

/-- The constructor call `new Heap(new int(value))`: one node, both children `NULL`. -/
def singleton (value : Int) : Heap := node (some value) null null

/-- The state of an object after `swap_pointers(NULL)`: all three fields `NULL`. -/
def emptyHeap : Heap := node none null null

/-- Embedding of `Heap::merge` (`this->merge(other)`).

* `this == NULL` returns `other`; otherwise `other == NULL` returns `this`;
* the comparison `*this->root > *other->root` reads both keys, and fails when one is `NULL`;
* when it holds the result is `new Heap(other->root, L, other->left)` with `L` the merge of
  `this` and `other->right` if `other->right != NULL`, else a copy of `this`;
* otherwise the result is `new Heap(this->root, L, this->left)` with `L` the merge of `other`
  and `this->right` if `this->right != NULL`, else `other`. -/
def merge (this other : Heap) : Option Heap :=
  match this, other with
  | null, _ => some other
  | node _ _ _, null => some this
  | node none _ _, node _ _ _ => none
  | node (some _) _ _, node none _ _ => none
  | node (some a) tl tr, node (some b) ol or =>
    if a > b then
      (if or ≠ null then merge (node (some a) tl tr) or
        else some (node (some a) tl tr)).map (fun m => node (some b) m ol)
    else
      (if tr ≠ null then merge (node (some b) ol or) tr
        else some (node (some b) ol or)).map (fun m => node (some a) m tl)
termination_by size this + size other
decreasing_by
  all_goals simp [size]
  all_goals omega

/-- Embedding of `Heap::swap_pointers`: the new content of the receiving object.
With `other == NULL` all three fields become `NULL`; otherwise they are copied from `other`.
The receiver itself is dereferenced, so a `NULL` receiver fails. -/
def swap_pointers (this other : Heap) : Option Heap :=
  match this with
  | null => none
  | node _ _ _ =>
    match other with
    | null => some (node none null null)
    | node k l r => some (node k l r)

/-- Embedding of `Heap::min`: `return *this->root;`. -/
def min (this : Heap) : Option Int :=
  match this with
  | null => none
  | node k _ _ => k

/-- Embedding of `Heap::insert`: `temp = merge(new Heap(new int(value))); swap_pointers(temp);`. -/
def insert (this : Heap) (value : Int) : Option Heap :=
  match merge this (singleton value) with
  | none => none
  | some temp => swap_pointers this temp

/-- Embedding of `Heap::delete_min`: `temp = this->left->merge(this->right); swap_pointers(temp);`.
The key of the receiver is not read. -/
def delete_min (this : Heap) : Option Heap :=
  match this with
  | null => none
  | node _ l r =>
    match merge l r with
    | none => none
    | some temp => swap_pointers this temp

/-- One step of a path from the root: to the left or to the right child. -/
inductive Dir where
  | L : Dir
  | R : Dir
deriving DecidableEq

/-- The call `h->delete_min()` for the object `h` at position `path` below `this`: the object
at that position is updated in place, the rest of the tree is untouched.  A position whose
pointer is `NULL` (or that does not exist) fails. -/
def delete_min_at (this : Heap) (path : List Dir) : Option Heap :=
  match path, this with
  | [], _ => delete_min this
  | _ :: _, null => none
  | Dir.L :: p, node k l r =>
    match delete_min_at l p with
    | none => none
    | some l2 => some (node k l2 r)
  | Dir.R :: p, node k l r =>
    match delete_min_at r p with
    | none => none
    | some r2 => some (node k l r2)

/-- Embedding of `Heap::modify_key`: `h->delete_min(); this->insert(new_value);`, the target
`h` being the object at position `path` of the tree of `this`. -/
def modify_key (this : Heap) (new_value : Int) (path : List Dir) : Option Heap :=
  match delete_min_at this path with
  | none => none
  | some t => insert t new_value

/-- The subtree at a position, `none` when the position does not exist. -/
def subtree_at (this : Heap) (path : List Dir) : Option Heap :=
  match path, this with
  | [], _ => some this
  | _ :: _, null => none
  | Dir.L :: p, node _ l _ => subtree_at l p
  | Dir.R :: p, node _ _ r => subtree_at r p

/-- The multiset of keys stored in the objects reachable from a pointer. -/
def keys : Heap → Multiset Int
  | null => 0
  | node none l r => keys l + keys r
  | node (some a) l r => a ::ₘ (keys l + keys r)

/-- The key of the node a pointer refers to, if the pointer and the key are not `NULL`. -/
def rootKey : Heap → Option Int
  | null => none
  | node k _ _ => k

/-- Every reachable object carries a key (`NULL` is keyed: it has no object). -/
def keyed : Heap → Bool
  | null => true
  | node k l r => k.isSome && keyed l && keyed r

/-- A child with a key has a key not below its parent's key, when the parent has one. -/
def childOk (k : Option Int) (child : Heap) : Bool :=
  match k, rootKey child with
  | some a, some b => decide (a ≤ b)
  | _, _ => true

/-- Heap order: at every node with a key, each child with a key has a key `≥` the node's. -/
def heapOrder : Heap → Bool
  | null => true
  | node k l r => childOk k l && childOk k r && heapOrder l && heapOrder r

/-- The integer `m` is a lower bound of the key at the root, when there is one. -/
def lowerBound (m : Int) (h : Heap) : Prop := ∀ a, rootKey h = some a → m ≤ a

/-- Emptiness invariant: an object without a key has both children `NULL`. -/
def emptinessInv : Heap → Bool
  | null => true
  | node none null null => true
  | node none _ _ => false
  | node (some _) l r => emptinessInv l && emptinessInv r

/-- Well-formedness of a handle: it is an object, and it and every object linked below it
carry a key. -/
def wellFormed : Heap → Bool
  | null => false
  | node k l r => keyed (node k l r)

/-- A sample heap with keys 1, 2, 4. -/
def sampleA : Heap := node (some 1) (singleton 4) (singleton 2)

/-- A sample heap with keys 2, 3. -/
def sampleB : Heap := node (some 2) (singleton 3) null

/-- The heap built by create 3; insert 1; insert 8; insert 5: keys 1, 3, 5, 8, and the right
child of the root is the leaf 8. -/
def sampleT : Heap := node (some 1) (node (some 3) (singleton 5) null) (singleton 8)

/-- A command of a session on one heap handle. -/
inductive Op where
  | insert (value : Int) : Op
  | delete_min : Op
  | modify_key (new_value : Int) (path : List Dir) : Op
deriving DecidableEq

/-- Run one command on the handle. -/
def step (h : Heap) : Op → Option Heap
  | Op.insert v => insert h v
  | Op.delete_min => delete_min h
  | Op.modify_key v p => modify_key h v p

/-- Run a sequence of commands, left to right; a failing command fails the run. -/
def run (h : Heap) : List Op → Option Heap
  | [] => some h
  | o :: os =>
    match step h o with
    | none => none
    | some h2 => run h2 os

/-- The command is `insert` or `delete_min`. -/
def Op.isInsDel : Op → Bool
  | Op.modify_key _ _ => false
  | _ => true

/-- The client loop "while the heap is not empty: read `min`, then `delete_min`", with the
keys read and the final heap as result.  Each round, and the final emptiness test, uses one
unit of `fuel`; `none` is a failure of an operation or exhausted fuel. -/
def drain : Nat → Heap → Option (List Int × Heap)
  | 0, _ => none
  | fuel + 1, h =>
    match h with
    | node none _ _ => some ([], h)
    | _ =>
      match min h, delete_min h with
      | some k, some h2 =>
        match drain fuel h2 with
        | some (ks, h3) => some (k :: ks, h3)
        | none => none
      | _, _ => none

/-- The call `this->min()` as a state transformer.  `some (a, s)`: the call returns the
value `a` and the fields of the receiver are `s` afterwards; the body `return *this->root;`
assigns no field, so `s` is the receiver as it was.  `none`: the call does not return,
the dereference of the `NULL` key ends the run, and there is neither a value nor a state
of the receiver afterwards.  The code has no other outcome: it reports no error to its
caller. -/
def min_call (this : Heap) : Option (Int × Heap) :=
  match min this with
  | none => none
  | some a => some (a, this)

/-- Embedding of `Heap::get_left`: `return this->left;`. -/
def get_left (this : Heap) : Option Heap :=
  match this with
  | null => none
  | node _ l _ => some l

/-- Embedding of `Heap::get_right`.  The body is `return this->left;`. -/
def get_right (this : Heap) : Option Heap :=
  match this with
  | null => none
  | node _ l _ => some l

/-- The path loop of the `MODIFICAR` command in `main`: starting from the handle, each `I`
step replaces the current pointer by `get_left()` of it and each `D` step by `get_right()`.
The pointer is not tested between the steps; a step taken from `NULL` fails. -/
def navigate (h : Heap) (path : List Dir) : Option Heap :=
  match path with
  | [] => some h
  | Dir.L :: p =>
    match get_left h with
    | none => none
    | some c => navigate c p
  | Dir.R :: p =>
    match get_right h with
    | none => none
    | some c => navigate c p

/-- The path loop as a state transformer: the pointer reached, together with the tree of
the handle after the loop.  The loop assigns only its local pointer, and the accessors
assign nothing, so the tree comes back as it was. -/
def navigate_call (h : Heap) (path : List Dir) : Option (Heap × Heap) :=
  match navigate h path with
  | none => none
  | some t => some (t, h)

/-- Emptiness in the words of the specification: a subtree is empty when it has no key
(an absent subtree has none). -/
def specEmpty (h : Heap) : Bool := (rootKey h).isNone

/-- The merge algorithm in the words of the specification, section 4.1:

1. if `A` is empty the result is `B`; if `B` is empty the result is `A`;
2. otherwise `S` is `A` if `A.key ≤ B.key`, else `B`, and `L` is the other operand in full;
3. the new root key is `S.key`;
4. the new left child is `merge(L, S.right)` if `S.right` is non-empty, else `L`;
5. the new right child is `S.left`. -/
def mergeSpec (A B : Heap) : Heap :=
  match A, B with
  | null, _ => B
  | node none _ _, _ => B
  | node (some _) _ _, null => A
  | node (some _) _ _, node none _ _ => A
  | node (some a) la ra, node (some b) lb rb =>
    if a ≤ b then
      node (some a)
        (if specEmpty ra = false then mergeSpec (node (some b) lb rb) ra
          else node (some b) lb rb) la
    else
      node (some b)
        (if specEmpty rb = false then mergeSpec (node (some a) la ra) rb
          else node (some a) la ra) lb
termination_by size A + size B
decreasing_by
  all_goals simp [size]
  all_goals omega

/-- The commands are `insert`s and `delete_min`s, and no `delete_min` removes the last key:
each `delete_min` finds at least two keys, `n` being the number of keys before the
commands. -/
def neverEmpties : Nat → List Op → Bool
  | _, [] => true
  | n, Op.insert _ :: os => neverEmpties (n + 1) os
  | n, Op.delete_min :: os => decide (2 ≤ n) && neverEmpties (n - 1) os
  | _, Op.modify_key _ _ :: _ => false

/-- The state after create 1; insert 8; `modify_key` with new value 9 on the left child of
the root: keys 1 and 9, and the former target linked without a key as right child. -/
def sampleK : Heap := node (some 1) (singleton 9) emptyHeap

/-- A sample heap with keys 1 and 3 and no right child. -/
def sampleC : Heap := node (some 1) (singleton 3) null

/-! ## Lemmas on `merge` -/

theorem merge_null_left (other : Heap) : merge null other = some other := by
  simp [merge]

theorem merge_null_right (this : Heap) : merge this null = some this := by
  cases this <;> simp [merge]

theorem merge_gt (a b : Int) (tl tr ol or : Heap) (hab : a > b) :
    merge (node (some a) tl tr) (node (some b) ol or)
      = (if or ≠ null then merge (node (some a) tl tr) or
        else some (node (some a) tl tr)).map (fun m => node (some b) m ol) := by
  rw [merge]; simp [hab]

theorem merge_le (a b : Int) (tl tr ol or : Heap) (hab : ¬ a > b) :
    merge (node (some a) tl tr) (node (some b) ol or)
      = (if tr ≠ null then merge (node (some b) ol or) tr
        else some (node (some b) ol or)).map (fun m => node (some a) m tl) := by
  rw [merge]; simp [hab]

theorem merge_nokey_left (l r : Heap) (k2 : Option Int) (l2 r2 : Heap) :
    merge (node none l r) (node k2 l2 r2) = none := by
  simp [merge]

theorem merge_nokey_right (k : Option Int) (l r l2 r2 : Heap) :
    merge (node k l r) (node none l2 r2) = none := by
  cases k <;> simp [merge]

theorem keys_merge_of_eq (this other : Heap) :
    ∀ C, merge this other = some C → keys C = keys this + keys other := by
  induction this, other using merge.induct with
  | case1 other => intro C h; simp [merge] at h; subst h; simp [keys]
  | case2 k l r => intro C h; simp [merge] at h; subst h; simp [keys]
  | case3 l r k l2 r2 => intro C h; simp [merge] at h
  | case4 a l r l2 r2 => intro C h; simp [merge] at h
  | case5 a tl tr b ol or hab ih =>
    intro C h
    rw [merge_gt _ _ _ _ _ _ hab] at h
    by_cases hor : or = null
    · subst hor
      simp at h
      subst h
      simp [keys, add_comm, add_left_comm, Multiset.cons_swap]
    · simp only [ne_eq, hor, not_false_eq_true, if_true, Option.map_eq_some'] at h
      obtain ⟨m, hm, rfl⟩ := h
      have := ih m hm
      simp [keys, this, add_comm, add_left_comm, Multiset.cons_swap]
  | case6 a tl tr b ol or hab ih =>
    intro C h
    rw [merge_le _ _ _ _ _ _ hab] at h
    by_cases htr : tr = null
    · subst htr
      simp at h
      subst h
      simp [keys, add_comm, add_left_comm, Multiset.cons_swap]
    · simp only [ne_eq, htr, not_false_eq_true, if_true, Option.map_eq_some'] at h
      obtain ⟨m, hm, rfl⟩ := h
      have := ih m hm
      simp [keys, this, add_assoc, add_comm, add_left_comm, Multiset.cons_swap]

theorem keyed_merge (this other : Heap) :
    keyed this = true → keyed other = true →
      ∃ C, merge this other = some C ∧ keyed C = true ∧ (this ≠ null ∨ other ≠ null → C ≠ null) := by
  induction this, other using merge.induct with
  | case1 other => intro _ h; exact ⟨other, by simp [merge], h, by simp⟩
  | case2 k l r => intro h _; exact ⟨node k l r, by simp [merge], h, by simp⟩
  | case3 l r k l2 r2 => intro h; simp [keyed] at h
  | case4 a l r l2 r2 => intro _ h; simp [keyed] at h
  | case5 a tl tr b ol or hab ih =>
    intro h1 h2
    rw [merge_gt _ _ _ _ _ _ hab]
    have h2b : keyed ol = true ∧ keyed or = true := by simpa [keyed] using h2
    by_cases hor : or = null
    · subst hor
      refine ⟨node (some b) (node (some a) tl tr) ol, by simp, ?_, by simp⟩
      simp only [keyed, Bool.and_eq_true] at h1 ⊢
      exact ⟨⟨rfl, h1⟩, h2b.1⟩
    · obtain ⟨m, hm, hkm, _⟩ := ih h1 h2b.2
      exact ⟨node (some b) m ol, by simp [hor, hm], by simp [keyed, hkm, h2b.1], by simp⟩
  | case6 a tl tr b ol or hab ih =>
    intro h1 h2
    rw [merge_le _ _ _ _ _ _ hab]
    have h1b : keyed tl = true ∧ keyed tr = true := by simpa [keyed] using h1
    by_cases htr : tr = null
    · subst htr
      refine ⟨node (some a) (node (some b) ol or) tl, by simp, ?_, by simp⟩
      simp only [keyed, Bool.and_eq_true] at h2 ⊢
      exact ⟨⟨rfl, h2⟩, h1b.1⟩
    · obtain ⟨m, hm, hkm, _⟩ := ih h2 h1b.2
      exact ⟨node (some a) m tl, by simp [htr, hm], by simp [keyed, hkm, h1b.1], by simp⟩

theorem childOk_iff (a : Int) (c : Heap) : childOk (some a) c = true ↔ lowerBound a c := by
  unfold childOk lowerBound
  cases hc : rootKey c <;> simp

theorem childOk_none (c : Heap) : childOk none c = true := by
  simp [childOk]

theorem lowerBound_null (m : Int) : lowerBound m null := by
  intro a h; simp [rootKey] at h

theorem heapOrder_node (k : Option Int) (l r : Heap) :
    heapOrder (node k l r) = true ↔
      childOk k l = true ∧ childOk k r = true ∧ heapOrder l = true ∧ heapOrder r = true := by
  simp [heapOrder, and_assoc]

theorem heapOrder_merge (this other : Heap) :
    ∀ C, merge this other = some C → heapOrder this = true → heapOrder other = true →
      heapOrder C = true ∧ ∀ m, lowerBound m this → lowerBound m other → lowerBound m C := by
  induction this, other using merge.induct with
  | case1 other =>
    intro C h _ h2; simp [merge] at h; subst h; exact ⟨h2, fun m _ hm => hm⟩
  | case2 k l r =>
    intro C h h1 _; simp [merge] at h; subst h; exact ⟨h1, fun m hm _ => hm⟩
  | case3 l r k l2 r2 => intro C h; simp [merge] at h
  | case4 a l r l2 r2 => intro C h; simp [merge] at h
  | case5 a tl tr b ol or hab ih =>
    intro C h h1 h2
    rw [merge_gt _ _ _ _ _ _ hab] at h
    obtain ⟨c1, c2, o1, o2⟩ := (heapOrder_node _ _ _).1 h2
    have hroot : ∀ m, lowerBound m (node (some a) tl tr) → lowerBound m (node (some b) ol or) →
        ∀ x, lowerBound m (node (some b) x ol) := by
      intro m _ hm x c hc
      exact hm c (by simpa [rootKey] using hc)
    by_cases hor : or = null
    · subst hor
      simp at h
      subst h
      refine ⟨?_, fun m h3 h4 => hroot m h3 h4 _⟩
      rw [heapOrder_node]
      refine ⟨?_, c1, h1, o1⟩
      rw [childOk_iff]
      intro c hc
      simp [rootKey] at hc
      omega
    · simp only [ne_eq, hor, not_false_eq_true, if_true, Option.map_eq_some'] at h
      obtain ⟨m, hm, rfl⟩ := h
      obtain ⟨om, bm⟩ := ih m hm h1 o2
      refine ⟨?_, fun m h3 h4 => hroot m h3 h4 _⟩
      rw [heapOrder_node]
      refine ⟨?_, c1, om, o1⟩
      rw [childOk_iff]
      apply bm
      · intro c hc
        simp [rootKey] at hc
        omega
      · exact (childOk_iff _ _).1 c2
  | case6 a tl tr b ol or hab ih =>
    intro C h h1 h2
    rw [merge_le _ _ _ _ _ _ hab] at h
    obtain ⟨c1, c2, o1, o2⟩ := (heapOrder_node _ _ _).1 h1
    have hroot : ∀ m, lowerBound m (node (some a) tl tr) → lowerBound m (node (some b) ol or) →
        ∀ x, lowerBound m (node (some a) x tl) := by
      intro m hm _ x c hc
      exact hm c (by simpa [rootKey] using hc)
    by_cases htr : tr = null
    · subst htr
      simp at h
      subst h
      refine ⟨?_, fun m h3 h4 => hroot m h3 h4 _⟩
      rw [heapOrder_node]
      refine ⟨?_, c1, h2, o1⟩
      rw [childOk_iff]
      intro c hc
      simp [rootKey] at hc
      omega
    · simp only [ne_eq, htr, not_false_eq_true, if_true, Option.map_eq_some'] at h
      obtain ⟨m, hm, rfl⟩ := h
      obtain ⟨om, bm⟩ := ih m hm h2 o2
      refine ⟨?_, fun m h3 h4 => hroot m h3 h4 _⟩
      rw [heapOrder_node]
      refine ⟨?_, c1, om, o1⟩
      rw [childOk_iff]
      apply bm
      · intro c hc
        simp [rootKey] at hc
        omega
      · exact (childOk_iff _ _).1 c2

theorem emptinessInv_merge (this other : Heap) :
    ∀ C, merge this other = some C → emptinessInv this = true → emptinessInv other = true →
      emptinessInv C = true := by
  induction this, other using merge.induct with
  | case1 other => intro C h _ h2; simp [merge] at h; subst h; exact h2
  | case2 k l r => intro C h h1 _; simp [merge] at h; subst h; exact h1
  | case3 l r k l2 r2 => intro C h; simp [merge] at h
  | case4 a l r l2 r2 => intro C h; simp [merge] at h
  | case5 a tl tr b ol or hab ih =>
    intro C h h1 h2
    rw [merge_gt _ _ _ _ _ _ hab] at h
    have h2b : emptinessInv ol = true ∧ emptinessInv or = true := by
      simpa [emptinessInv] using h2
    by_cases hor : or = null
    · subst hor
      simp at h
      subst h
      simp only [emptinessInv, Bool.and_eq_true] at h1 ⊢
      exact ⟨h1, h2b.1⟩
    · simp only [ne_eq, hor, not_false_eq_true, if_true, Option.map_eq_some'] at h
      obtain ⟨m, hm, rfl⟩ := h
      simp only [emptinessInv, Bool.and_eq_true]
      exact ⟨ih m hm h1 h2b.2, h2b.1⟩
  | case6 a tl tr b ol or hab ih =>
    intro C h h1 h2
    rw [merge_le _ _ _ _ _ _ hab] at h
    have h1b : emptinessInv tl = true ∧ emptinessInv tr = true := by
      simpa [emptinessInv] using h1
    by_cases htr : tr = null
    · subst htr
      simp at h
      subst h
      simp only [emptinessInv, Bool.and_eq_true] at h2 ⊢
      exact ⟨h2, h1b.1⟩
    · simp only [ne_eq, htr, not_false_eq_true, if_true, Option.map_eq_some'] at h
      obtain ⟨m, hm, rfl⟩ := h
      simp only [emptinessInv, Bool.and_eq_true]
      exact ⟨ih m hm h2 h1b.2, h1b.1⟩

/-! ## Lemmas on the mutating operations -/

theorem swap_pointers_spec (this temp h2 : Heap) (h : swap_pointers this temp = some h2) :
    this ≠ null ∧ keys h2 = keys temp ∧ heapOrder h2 = heapOrder temp ∧
      emptinessInv h2 = emptinessInv temp ∧ rootKey h2 = rootKey temp ∧
      (temp ≠ null → h2 = temp) ∧ (temp = null → h2 = emptyHeap) := by
  cases this with
  | null => simp [swap_pointers] at h
  | node k l r =>
    cases temp with
    | null =>
      simp [swap_pointers] at h
      subst h
      simp [keys, heapOrder, emptinessInv, rootKey, emptyHeap, childOk]
    | node k2 l2 r2 =>
      simp [swap_pointers] at h
      subst h
      simp

theorem insert_spec (h : Heap) (v : Int) (h2 : Heap) (hi : insert h v = some h2) :
    h ≠ null ∧ ∃ temp, merge h (singleton v) = some temp ∧ swap_pointers h temp = some h2 := by
  unfold insert at hi
  cases hm : merge h (singleton v) with
  | none => simp [hm] at hi
  | some temp =>
    simp only [hm] at hi
    exact ⟨(swap_pointers_spec _ _ _ hi).1, temp, rfl, hi⟩

theorem delete_min_spec (k : Option Int) (l r h2 : Heap) (hd : delete_min (node k l r) = some h2) :
    ∃ temp, merge l r = some temp ∧ swap_pointers (node k l r) temp = some h2 := by
  unfold delete_min at hd
  cases hm : merge l r with
  | none => simp [hm] at hd
  | some temp =>
    simp only [hm] at hd
    exact ⟨temp, rfl, hd⟩

theorem keys_insert (h : Heap) (v : Int) (h2 : Heap) (hi : insert h v = some h2) :
    keys h2 = v ::ₘ keys h := by
  obtain ⟨_, temp, hm, hs⟩ := insert_spec h v h2 hi
  have hv : keys (singleton v) = {v} := by simp [singleton, keys]
  rw [(swap_pointers_spec _ _ _ hs).2.1, keys_merge_of_eq _ _ _ hm, hv, add_comm,
    Multiset.singleton_add]

theorem keys_delete_min (k : Option Int) (l r h2 : Heap)
    (hd : delete_min (node k l r) = some h2) : keys h2 = keys l + keys r := by
  obtain ⟨temp, hm, hs⟩ := delete_min_spec k l r h2 hd
  rw [(swap_pointers_spec _ _ _ hs).2.1, keys_merge_of_eq _ _ _ hm]

theorem insert_wellFormed (h : Heap) (v : Int) (hw : wellFormed h = true) :
    ∃ h2, insert h v = some h2 ∧ wellFormed h2 = true := by
  cases h with
  | null => simp [wellFormed] at hw
  | node k l r =>
    have hk : keyed (node k l r) = true := by simpa [wellFormed] using hw
    obtain ⟨C, hC, hkC, hne⟩ := keyed_merge (node k l r) (singleton v) hk (by simp [singleton, keyed])
    have hCne : C ≠ null := hne (Or.inl (by simp))
    cases C with
    | null => exact absurd rfl hCne
    | node k2 l2 r2 =>
      exact ⟨node k2 l2 r2, by simp [insert, hC, swap_pointers], by simpa [wellFormed] using hkC⟩

theorem delete_min_wellFormed (h : Heap) (hw : wellFormed h = true) :
    ∃ k h2, min h = some k ∧ delete_min h = some h2 ∧
      (h2 = emptyHeap ∨ wellFormed h2 = true) := by
  cases h with
  | null => simp [wellFormed] at hw
  | node k l r =>
    have hk : k.isSome = true ∧ keyed l = true ∧ keyed r = true := by
      simpa [wellFormed, keyed, and_assoc] using hw
    obtain ⟨C, hC, hkC, _⟩ := keyed_merge l r hk.2.1 hk.2.2
    obtain ⟨a, rfl⟩ := Option.isSome_iff_exists.1 hk.1
    cases C with
    | null => exact ⟨a, emptyHeap, rfl, by simp [delete_min, hC, swap_pointers, emptyHeap], Or.inl rfl⟩
    | node k2 l2 r2 =>
      exact ⟨a, node k2 l2 r2, rfl, by simp [delete_min, hC, swap_pointers],
        Or.inr (by simpa [wellFormed] using hkC)⟩

theorem emptinessInv_children (k : Option Int) (l r : Heap)
    (h : emptinessInv (node k l r) = true) :
    emptinessInv l = true ∧ emptinessInv r = true ∧ (k = none → l = null ∧ r = null) := by
  cases k with
  | some a => simpa [emptinessInv] using h
  | none =>
    cases l <;> cases r <;> simp [emptinessInv] at h ⊢

theorem inv_insert (h : Heap) (v : Int) (h2 : Heap) (hi : insert h v = some h2)
    (ho : heapOrder h = true) (he : emptinessInv h = true) :
    heapOrder h2 = true ∧ emptinessInv h2 = true := by
  obtain ⟨_, temp, hm, hs⟩ := insert_spec h v h2 hi
  obtain ⟨_, _, hso, hse, _⟩ := swap_pointers_spec _ _ _ hs
  rw [hso, hse]
  exact ⟨(heapOrder_merge _ _ _ hm ho (by simp [singleton, heapOrder, childOk, rootKey])).1,
    emptinessInv_merge _ _ _ hm he (by simp [singleton, emptinessInv])⟩

theorem inv_delete_min (h h2 : Heap) (hd : delete_min h = some h2)
    (ho : heapOrder h = true) (he : emptinessInv h = true) :
    heapOrder h2 = true ∧ emptinessInv h2 = true ∧ ∀ m, lowerBound m h → lowerBound m h2 := by
  cases h with
  | null => simp [delete_min] at hd
  | node k l r =>
    obtain ⟨temp, hm, hs⟩ := delete_min_spec k l r h2 hd
    obtain ⟨_, _, hso, hse, hsr, _⟩ := swap_pointers_spec _ _ _ hs
    obtain ⟨c1, c2, o1, o2⟩ := (heapOrder_node _ _ _).1 ho
    obtain ⟨e1, e2, e3⟩ := emptinessInv_children k l r he
    obtain ⟨om, bm⟩ := heapOrder_merge _ _ _ hm o1 o2
    rw [hso, hse]
    refine ⟨om, emptinessInv_merge _ _ _ hm e1 e2, ?_⟩
    intro m hmb c hc
    rw [hsr] at hc
    cases k with
    | none =>
      obtain ⟨rfl, rfl⟩ := e3 rfl
      simp [merge] at hm
      subst hm
      simp [rootKey] at hc
    | some a =>
      have h1 : m ≤ a := hmb a rfl
      have h2 : a ≤ c := bm a ((childOk_iff _ _).1 c1) ((childOk_iff _ _).1 c2) c hc
      omega

theorem inv_delete_min_at (path : List Dir) :
    ∀ (this t : Heap), delete_min_at this path = some t →
      heapOrder this = true → emptinessInv this = true →
      heapOrder t = true ∧ emptinessInv t = true ∧ ∀ m, lowerBound m this → lowerBound m t := by
  induction path with
  | nil =>
    intro this t hd ho he
    simp only [delete_min_at] at hd
    exact inv_delete_min this t hd ho he
  | cons d p ih =>
    intro this t hd ho he
    cases this with
    | null => simp [delete_min_at] at hd
    | node k l r =>
      obtain ⟨c1, c2, o1, o2⟩ := (heapOrder_node _ _ _).1 ho
      obtain ⟨e1, e2, e3⟩ := emptinessInv_children k l r he
      cases d with
      | L =>
        simp only [delete_min_at] at hd
        cases hl : delete_min_at l p with
        | none => simp [hl] at hd
        | some l2 =>
          simp only [hl, Option.some.injEq] at hd
          subst hd
          obtain ⟨ol, el, bl⟩ := ih l l2 hl o1 e1
          cases k with
          | none =>
            obtain ⟨rfl, rfl⟩ := e3 rfl
            cases p <;> simp [delete_min_at, delete_min] at hl
          | some a =>
            refine ⟨?_, by simp [emptinessInv, el, e2], fun m hm => hm⟩
            rw [heapOrder_node]
            exact ⟨(childOk_iff _ _).2 (bl a ((childOk_iff _ _).1 c1)), c2, ol, o2⟩
      | R =>
        simp only [delete_min_at] at hd
        cases hr : delete_min_at r p with
        | none => simp [hr] at hd
        | some r2 =>
          simp only [hr, Option.some.injEq] at hd
          subst hd
          obtain ⟨or2, er, br⟩ := ih r r2 hr o2 e2
          cases k with
          | none =>
            obtain ⟨rfl, rfl⟩ := e3 rfl
            cases p <;> simp [delete_min_at, delete_min] at hr
          | some a =>
            refine ⟨?_, by simp [emptinessInv, er, e1], fun m hm => hm⟩
            rw [heapOrder_node]
            exact ⟨c1, (childOk_iff _ _).2 (br a ((childOk_iff _ _).1 c2)), o1, or2⟩

theorem inv_step (h h2 : Heap) (o : Op) (hs : step h o = some h2)
    (ho : heapOrder h = true) (he : emptinessInv h = true) :
    heapOrder h2 = true ∧ emptinessInv h2 = true := by
  cases o with
  | insert v => exact inv_insert h v h2 hs ho he
  | delete_min =>
    obtain ⟨a, b, _⟩ := inv_delete_min h h2 hs ho he
    exact ⟨a, b⟩
  | modify_key v p =>
    simp only [step, modify_key] at hs
    cases hd : delete_min_at h p with
    | none => simp [hd] at hs
    | some t =>
      simp only [hd] at hs
      obtain ⟨a, b, _⟩ := inv_delete_min_at p h t hd ho he
      exact inv_insert t v h2 hs a b

theorem inv_run (ops : List Op) :
    ∀ (h h2 : Heap), run h ops = some h2 → heapOrder h = true → emptinessInv h = true →
      heapOrder h2 = true ∧ emptinessInv h2 = true := by
  induction ops with
  | nil =>
    intro h h2 hr ho he
    simp only [run, Option.some.injEq] at hr
    subst hr
    exact ⟨ho, he⟩
  | cons o os ih =>
    intro h h2 hr ho he
    simp only [run] at hr
    cases hs : step h o with
    | none => simp [hs] at hr
    | some h1 =>
      simp only [hs] at hr
      obtain ⟨a, b⟩ := inv_step h h1 o hs ho he
      exact ih h1 h2 hr a b

theorem heapOrder_delete_min (h h2 : Heap) (hd : delete_min h = some h2)
    (ho : heapOrder h = true) : heapOrder h2 = true := by
  cases h with
  | null => simp [delete_min] at hd
  | node k l r =>
    obtain ⟨temp, hm, hs⟩ := delete_min_spec k l r h2 hd
    obtain ⟨_, _, o1, o2⟩ := (heapOrder_node _ _ _).1 ho
    rw [(swap_pointers_spec _ _ _ hs).2.2.1]
    exact (heapOrder_merge _ _ _ hm o1 o2).1

theorem heapOrder_insert (h : Heap) (v : Int) (h2 : Heap) (hi : insert h v = some h2)
    (ho : heapOrder h = true) : heapOrder h2 = true := by
  obtain ⟨_, temp, hm, hs⟩ := insert_spec h v h2 hi
  rw [(swap_pointers_spec _ _ _ hs).2.2.1]
  exact (heapOrder_merge _ _ _ hm ho (by simp [singleton, heapOrder, childOk, rootKey])).1

theorem insert_emptyHeap (v : Int) : insert emptyHeap v = none := by
  simp [insert, emptyHeap, singleton, merge]

theorem delete_min_emptyHeap : delete_min emptyHeap = some emptyHeap := by
  simp [delete_min, emptyHeap, merge, swap_pointers]

theorem keys_emptyHeap : keys emptyHeap = 0 := by
  simp [keys, emptyHeap]

/-- In a keyed, heap-ordered tree the key at the root is a lower bound of all keys. -/
theorem root_le_keys (h : Heap) :
    keyed h = true → heapOrder h = true → ∀ k, rootKey h = some k → ∀ x ∈ keys h, k ≤ x := by
  induction h with
  | null => intro _ _ k hk; simp [rootKey] at hk
  | node k0 l r ihl ihr =>
    intro hk ho k hr x hx
    simp only [rootKey] at hr
    subst hr
    have hk2 : keyed l = true ∧ keyed r = true := by simpa [keyed] using hk
    obtain ⟨c1, c2, o1, o2⟩ := (heapOrder_node _ _ _).1 ho
    have sub : ∀ c : Heap, keyed c = true → heapOrder c = true → childOk (some k) c = true →
        (∀ kc, rootKey c = some kc → ∀ y ∈ keys c, kc ≤ y) → ∀ y ∈ keys c, k ≤ y := by
      intro c hkc oc cc ih y hy
      cases c with
      | null => simp [keys] at hy
      | node kc lc rc =>
        have hsome : kc.isSome = true := by
          simp only [keyed, Bool.and_eq_true] at hkc
          exact hkc.1.1
        obtain ⟨b, rfl⟩ := Option.isSome_iff_exists.1 hsome
        have h1 : k ≤ b := (childOk_iff _ _).1 cc b rfl
        have h2 : b ≤ y := ih b rfl y hy
        omega
    simp only [keys, Multiset.mem_cons, Multiset.mem_add] at hx
    rcases hx with rfl | hx | hx
    · exact le_refl _
    · exact sub l hk2.1 o1 c1 (ihl hk2.1 o1) x hx
    · exact sub r hk2.2 o2 c2 (ihr hk2.2 o2) x hx

theorem wellFormed_node (h : Heap) (hw : wellFormed h = true) :
    keyed h = true ∧ ∃ k l r, h = node (some k) l r := by
  cases h with
  | null => simp [wellFormed] at hw
  | node k l r =>
    have hk : keyed (node k l r) = true := by simpa [wellFormed] using hw
    have hsome : k.isSome = true := by
      simp only [keyed, Bool.and_eq_true] at hk
      exact hk.1.1
    obtain ⟨a, rfl⟩ := Option.isSome_iff_exists.1 hsome
    exact ⟨hk, a, l, r, rfl⟩

/-- A sequence of `insert` and `delete_min` commands leads from the empty heap or a
well-formed heap to the empty heap or a well-formed heap. -/
theorem insDel_run (ops : List Op) :
    ∀ (h h2 : Heap), (∀ o ∈ ops, Op.isInsDel o = true) → run h ops = some h2 →
      (h = emptyHeap ∨ wellFormed h = true) → (h2 = emptyHeap ∨ wellFormed h2 = true) := by
  induction ops with
  | nil =>
    intro h h2 _ hr hg
    simp only [run, Option.some.injEq] at hr
    subst hr
    exact hg
  | cons o os ih =>
    intro h h2 hall hr hg
    simp only [run] at hr
    cases hs : step h o with
    | none => simp [hs] at hr
    | some h1 =>
      simp only [hs] at hr
      refine ih h1 h2 (fun o2 ho2 => hall o2 (List.mem_cons_of_mem _ ho2)) hr ?_
      cases o with
      | insert v =>
        simp only [step] at hs
        rcases hg with rfl | hw
        · simp [insert_emptyHeap] at hs
        · obtain ⟨h3, hi, hw3⟩ := insert_wellFormed h v hw
          rw [hi] at hs
          cases hs
          exact Or.inr hw3
      | delete_min =>
        simp only [step] at hs
        rcases hg with rfl | hw
        · rw [delete_min_emptyHeap] at hs
          cases hs
          exact Or.inl rfl
        · obtain ⟨_, h3, _, hd, hg3⟩ := delete_min_wellFormed h hw
          rw [hd] at hs
          cases hs
          exact hg3
      | modify_key v p =>
        have := hall (Op.modify_key v p) (List.mem_cons_self _ _)
        simp [Op.isInsDel] at this

theorem inserts_run (vs : List Int) :
    ∀ h : Heap, wellFormed h = true →
      ∃ h2, run h (vs.map Op.insert) = some h2 ∧ wellFormed h2 = true ∧
        keys h2 = keys h + (vs : Multiset Int) := by
  induction vs with
  | nil => intro h hw; exact ⟨h, by simp [run], hw, by simp⟩
  | cons v vs ih =>
    intro h hw
    obtain ⟨h1, hi, hw1⟩ := insert_wellFormed h v hw
    obtain ⟨h2, hr, hw2, hk2⟩ := ih h1 hw1
    refine ⟨h2, by simp [run, step, hi, hr], hw2, ?_⟩
    rw [hk2, keys_insert h v h1 hi, ← Multiset.cons_coe, Multiset.cons_add, Multiset.add_cons]

theorem drain_spec (fuel : Nat) :
    ∀ h : Heap, (h = emptyHeap ∨ wellFormed h = true) → heapOrder h = true →
      Multiset.card (keys h) < fuel →
      ∃ ks : List Int, drain fuel h = some (ks, emptyHeap) ∧ (ks : Multiset Int) = keys h ∧
        ks.Sorted (· ≤ ·) := by
  induction fuel with
  | zero => intro h _ _ hc; omega
  | succ fuel ih =>
    intro h hg ho hc
    rcases hg with rfl | hw
    · exact ⟨[], by simp [drain, emptyHeap], by simp [keys_emptyHeap], List.sorted_nil⟩
    · obtain ⟨hk, k, l, r, rfl⟩ := wellFormed_node h hw
      obtain ⟨k1, h2, hm, hd, hg2⟩ := delete_min_wellFormed _ hw
      have hm1 : k1 = k := by
        simp only [min, Option.some.injEq] at hm
        exact hm.symm
      subst hm1
      have hkeys : keys h2 = keys l + keys r := keys_delete_min _ l r h2 hd
      have hc2 : Multiset.card (keys h2) < fuel := by
        rw [hkeys]
        simp only [keys, Multiset.card_cons] at hc
        omega
      obtain ⟨ks, hdr, hks, hsorted⟩ := ih h2 hg2 (heapOrder_delete_min _ h2 hd ho) hc2
      refine ⟨k1 :: ks, by simp [drain, min, hd, hdr], ?_, ?_⟩
      · rw [← Multiset.cons_coe, hks, hkeys]
        simp [keys]
      · refine List.sorted_cons.2 ⟨fun x hx => ?_, hsorted⟩
        refine root_le_keys _ hk ho k1 rfl x ?_
        have hx2 : x ∈ keys h2 := by
          rw [← hks]
          exact hx
        rw [hkeys] at hx2
        simp only [keys, Multiset.mem_cons]
        exact Or.inr hx2

theorem drain_short (fuel : Nat) :
    ∀ h : Heap, (h = emptyHeap ∨ wellFormed h = true) →
      fuel ≤ Multiset.card (keys h) → drain fuel h = none := by
  induction fuel with
  | zero => intro h _ _; simp [drain]
  | succ fuel ih =>
    intro h hg hc
    rcases hg with rfl | hw
    · simp [keys_emptyHeap] at hc
    · obtain ⟨_, k, l, r, rfl⟩ := wellFormed_node h hw
      obtain ⟨k1, h2, _, hd, hg2⟩ := delete_min_wellFormed _ hw
      have hkeys : keys h2 = keys l + keys r := keys_delete_min _ l r h2 hd
      have hc2 : fuel ≤ Multiset.card (keys h2) := by
        rw [hkeys]
        simp only [keys, Multiset.card_cons] at hc
        omega
      simp [drain, min, hd, ih h2 hg2 hc2]

/-! ## Contract of `merge` -/

/-- C1: the multiset of keys of `merge(A, B)` is the multiset sum of the keys of `A` and of
`B`.  Whenever `merge` returns, its result has exactly the keys of both operands, and on
operands whose nodes all carry a key (either may be `NULL`) it does return. -/
theorem merge_keys_union (A B : Heap) :
    (∀ C, merge A B = some C → keys C = keys A + keys B) ∧
    (keyed A = true → keyed B = true → ∃ C, merge A B = some C ∧ keys C = keys A + keys B) := by
  refine ⟨keys_merge_of_eq A B, fun hA hB => ?_⟩
  obtain ⟨C, hC, _⟩ := keyed_merge A B hA hB
  exact ⟨C, hC, keys_merge_of_eq A B C hC⟩

theorem merge_keys_union_witness :
    (merge sampleA sampleB
        = some (node (some 1) (node (some 2) (singleton 2) (singleton 3)) (singleton 4)) ∧
      keys (node (some 1) (node (some 2) (singleton 2) (singleton 3)) (singleton 4))
        = keys sampleA + keys sampleB)
    ∧ keyed sampleA = true ∧ keyed sampleB = true
    ∧ ∃ C, merge sampleA sampleB = some C ∧ keys C = keys sampleA + keys sampleB :=
  ⟨⟨by simp [merge, sampleA, sampleB, singleton],
      (merge_keys_union sampleA sampleB).1 _ (by simp [merge, sampleA, sampleB, singleton])⟩,
    by decide, by decide, (merge_keys_union sampleA sampleB).2 (by decide) (by decide)⟩

/-- C2: `merge` of two heaps that satisfy heap order satisfies heap order.  Whenever `merge`
returns on heap-ordered operands its result is heap-ordered, and on operands whose nodes all
carry a key it does return. -/
theorem merge_heapOrder (A B : Heap) (hA : heapOrder A = true) (hB : heapOrder B = true) :
    (∀ C, merge A B = some C → heapOrder C = true) ∧
    (keyed A = true → keyed B = true → ∃ C, merge A B = some C ∧ heapOrder C = true) := by
  refine ⟨fun C hC => (heapOrder_merge A B C hC hA hB).1, fun kA kB => ?_⟩
  obtain ⟨C, hC, _⟩ := keyed_merge A B kA kB
  exact ⟨C, hC, (heapOrder_merge A B C hC hA hB).1⟩

theorem merge_heapOrder_witness :
    heapOrder sampleA = true ∧ heapOrder sampleB = true ∧
    (merge sampleA sampleB
        = some (node (some 1) (node (some 2) (singleton 2) (singleton 3)) (singleton 4)) ∧
      heapOrder (node (some 1) (node (some 2) (singleton 2) (singleton 3)) (singleton 4)) = true)
    ∧ keyed sampleA = true ∧ keyed sampleB = true
    ∧ ∃ C, merge sampleA sampleB = some C ∧ heapOrder C = true :=
  ⟨by decide, by decide,
    ⟨by simp [merge, sampleA, sampleB, singleton],
      (merge_heapOrder sampleA sampleB (by decide) (by decide)).1 _
        (by simp [merge, sampleA, sampleB, singleton])⟩,
    by decide, by decide,
    (merge_heapOrder sampleA sampleB (by decide) (by decide)).2 (by decide) (by decide)⟩

/-! ## Heap order as an invariant of a session -/

/-- C3: heap order is an invariant of the heap state.  Every state reached from a heap
created with a single key by a sequence of `insert`, `delete_min` and `modify_key`
commands satisfies heap order. -/
theorem heapOrder_invariant (k : Int) (ops : List Op) (h : Heap)
    (hrun : run (singleton k) ops = some h) : heapOrder h = true :=
  (inv_run ops (singleton k) h hrun (by simp [singleton, heapOrder, childOk, rootKey])
    (by simp [singleton, emptinessInv])).1

theorem heapOrder_invariant_witness :
    run (singleton 5) [Op.insert 3, Op.insert 8, Op.modify_key 1 [], Op.modify_key 9 [Dir.L],
        Op.delete_min] = some (node (some 8) (singleton 9) null) ∧
    heapOrder (node (some 8) (singleton 9) null) = true :=
  ⟨by simp [run, step, insert, delete_min, modify_key, delete_min_at, merge, swap_pointers,
      singleton],
    heapOrder_invariant 5 [Op.insert 3, Op.insert 8, Op.modify_key 1 [], Op.modify_key 9 [Dir.L],
        Op.delete_min] _
      (by simp [run, step, insert, delete_min, modify_key, delete_min_at, merge, swap_pointers,
        singleton])⟩

/-! ## Size conservation -/

/-- C4: `insert(h, v)` adds exactly one occurrence of `v` to the multiset of keys.  Whenever
`insert` returns, the keys are the previous ones plus `v`, and on a well-formed heap (an
object whose nodes all carry a key) it does return. -/
theorem insert_keys (h : Heap) (v : Int) :
    (∀ h2, insert h v = some h2 → keys h2 = v ::ₘ keys h) ∧
    (wellFormed h = true → ∃ h2, insert h v = some h2 ∧ keys h2 = v ::ₘ keys h) := by
  refine ⟨keys_insert h v, fun hw => ?_⟩
  obtain ⟨h2, hi, _⟩ := insert_wellFormed h v hw
  exact ⟨h2, hi, keys_insert h v h2 hi⟩

theorem insert_keys_witness :
    (insert sampleA 3 = some (node (some 1) (node (some 2) (singleton 3) null) (singleton 4)) ∧
      keys (node (some 1) (node (some 2) (singleton 3) null) (singleton 4))
        = 3 ::ₘ keys sampleA)
    ∧ wellFormed sampleA = true
    ∧ ∃ h2, insert sampleA 3 = some h2 ∧ keys h2 = 3 ::ₘ keys sampleA :=
  ⟨⟨by simp [insert, merge, swap_pointers, sampleA, singleton],
      (insert_keys sampleA 3).1 _ (by simp [insert, merge, swap_pointers, sampleA, singleton])⟩,
    by decide, (insert_keys sampleA 3).2 (by decide)⟩

/-- C5: `delete_min(h)` removes exactly one occurrence of the key that `min` returned before
the call.  Whenever both return, that key was in the heap and the keys afterwards are the
previous ones with one occurrence of it erased; on a well-formed heap both do return. -/
theorem delete_min_keys (h : Heap) :
    (∀ k h2, min h = some k → delete_min h = some h2 →
      k ∈ keys h ∧ keys h2 = (keys h).erase k) ∧
    (wellFormed h = true → ∃ k h2, min h = some k ∧ delete_min h = some h2 ∧
      k ∈ keys h ∧ keys h2 = (keys h).erase k) := by
  have key : ∀ k h2, min h = some k → delete_min h = some h2 →
      k ∈ keys h ∧ keys h2 = (keys h).erase k := by
    intro k h2 hm hd
    cases h with
    | null => simp [min] at hm
    | node k0 l r =>
      simp only [min] at hm
      subst hm
      rw [keys_delete_min _ l r h2 hd]
      simp [keys]
  refine ⟨key, fun hw => ?_⟩
  obtain ⟨k, h2, hm, hd, _⟩ := delete_min_wellFormed h hw
  exact ⟨k, h2, hm, hd, key k h2 hm hd⟩

theorem delete_min_keys_witness :
    (min sampleA = some 1 ∧ delete_min sampleA = some (node (some 2) (singleton 4) null) ∧
      (1 : Int) ∈ keys sampleA ∧
      keys (node (some 2) (singleton 4) null) = (keys sampleA).erase 1)
    ∧ wellFormed sampleA = true
    ∧ ∃ k h2, min sampleA = some k ∧ delete_min sampleA = some h2 ∧
        k ∈ keys sampleA ∧ keys h2 = (keys sampleA).erase k :=
  ⟨⟨by decide, by simp [delete_min, merge, swap_pointers, sampleA, singleton],
      (delete_min_keys sampleA).1 1 _ (by decide)
        (by simp [delete_min, merge, swap_pointers, sampleA, singleton])⟩,
    by decide, (delete_min_keys sampleA).2 (by decide)⟩

/-! ## The minimum -/

/-- C6: on every non-empty heap obtained from a created heap by `insert` and `delete_min`
commands, `min` returns the key at the root and that key is the least key of the heap
(first part); the scenario create 5; insert 3, 8, 1; min; delete_min; min; insert 0; min
reads 1, then 3, then 0 (second part). -/
theorem min_is_least :
    (∀ (k0 : Int) (ops : List Op) (h : Heap), (∀ o ∈ ops, Op.isInsDel o = true) →
      run (singleton k0) ops = some h → keys h ≠ 0 →
      ∃ m, min h = some m ∧ rootKey h = some m ∧ m ∈ keys h ∧ ∀ x ∈ keys h, m ≤ x) ∧
    ((run (singleton 5) [Op.insert 3, Op.insert 8, Op.insert 1]).bind min = some 1 ∧
      (run (singleton 5) [Op.insert 3, Op.insert 8, Op.insert 1, Op.delete_min]).bind min
        = some 3 ∧
      (run (singleton 5) [Op.insert 3, Op.insert 8, Op.insert 1, Op.delete_min,
        Op.insert 0]).bind min = some 0) := by
  refine ⟨?_, ?_, ?_, ?_⟩
  · intro k0 ops h hall hrun hne
    have ho : heapOrder h = true :=
      (inv_run ops (singleton k0) h hrun (by simp [singleton, heapOrder, childOk, rootKey])
        (by simp [singleton, emptinessInv])).1
    rcases insDel_run ops (singleton k0) h hall hrun
        (Or.inr (by simp [singleton, wellFormed, keyed])) with rfl | hw
    · exact absurd keys_emptyHeap hne
    · obtain ⟨hk, k, l, r, rfl⟩ := wellFormed_node h hw
      exact ⟨k, rfl, rfl, by simp [keys], root_le_keys _ hk ho k rfl⟩
  · simp [run, step, insert, delete_min, merge, swap_pointers, singleton, min]
  · simp [run, step, insert, delete_min, merge, swap_pointers, singleton, min]
  · simp [run, step, insert, delete_min, merge, swap_pointers, singleton, min]

theorem min_is_least_witness :
    run (singleton 5) [Op.insert 3, Op.insert 8, Op.insert 1, Op.delete_min]
      = some (node (some 3) (singleton 8) (singleton 5)) ∧
    keys (node (some 3) (singleton 8) (singleton 5)) ≠ 0 ∧
    ∃ m, min (node (some 3) (singleton 8) (singleton 5)) = some m ∧
      rootKey (node (some 3) (singleton 8) (singleton 5)) = some m ∧
      m ∈ keys (node (some 3) (singleton 8) (singleton 5)) ∧
      ∀ x ∈ keys (node (some 3) (singleton 8) (singleton 5)), m ≤ x :=
  ⟨by simp [run, step, insert, delete_min, merge, swap_pointers, singleton],
    by decide,
    min_is_least.1 5 [Op.insert 3, Op.insert 8, Op.insert 1, Op.delete_min] _ (by decide)
      (by simp [run, step, insert, delete_min, merge, swap_pointers, singleton]) (by decide)⟩

/-- C7: on a heap built by create and inserts, the loop that reads `min` and then calls
`delete_min` until the heap is empty completes (with any fuel above the number of keys),
reads the keys of the heap in non-decreasing order, namely the sorted list of its multiset
of keys, and leaves the empty heap.  It makes exactly as many rounds as the heap has keys:
one key is read per round, and fuel for that many rounds plus the final emptiness test is
needed (with fuel equal to the number of keys the loop is cut short). -/
theorem drain_sorted (k0 : Int) (vs : List Int) (fuel : Nat) (hfuel : vs.length + 1 < fuel) :
    ∃ h, run (singleton k0) (vs.map Op.insert) = some h ∧
      keys h = k0 ::ₘ (vs : Multiset Int) ∧
      drain fuel h = some ((keys h).sort (· ≤ ·), emptyHeap) ∧
      ((keys h).sort (· ≤ ·)).Sorted (· ≤ ·) ∧
      ((keys h).sort (· ≤ ·)).length = Multiset.card (keys h) ∧
      drain (Multiset.card (keys h)) h = none := by
  obtain ⟨h, hr, hw, hk⟩ := inserts_run vs (singleton k0) (by simp [singleton, wellFormed, keyed])
  have hk2 : keys h = k0 ::ₘ (vs : Multiset Int) := by
    rw [hk]
    simp [singleton, keys]
  have ho : heapOrder h = true :=
    (inv_run _ (singleton k0) h hr (by simp [singleton, heapOrder, childOk, rootKey])
      (by simp [singleton, emptinessInv])).1
  have hc : Multiset.card (keys h) < fuel := by
    rw [hk2]
    simpa using hfuel
  obtain ⟨ks, hd, hks, hs⟩ := drain_spec fuel h (Or.inr hw) ho hc
  have hsort : (keys h).sort (· ≤ ·) = ks := by
    apply List.eq_of_perm_of_sorted _ (Multiset.sort_sorted _ _) hs
    apply Multiset.coe_eq_coe.1
    rw [hks]
    exact Multiset.sort_eq _ _
  refine ⟨h, hr, hk2, ?_, Multiset.sort_sorted _ _, Multiset.length_sort _,
    drain_short _ h (Or.inr hw) (le_refl _)⟩
  rw [hsort]
  exact hd

theorem drain_sorted_witness :
    [3, 8, 1].length + 1 < 5 ∧
    ∃ h, run (singleton 5) ([3, 8, 1].map Op.insert) = some h ∧
      keys h = 5 ::ₘ (([3, 8, 1] : List Int) : Multiset Int) ∧
      drain 5 h = some ((keys h).sort (· ≤ ·), emptyHeap) ∧
      ((keys h).sort (· ≤ ·)).Sorted (· ≤ ·) ∧
      ((keys h).sort (· ≤ ·)).length = Multiset.card (keys h) ∧
      drain (Multiset.card (keys h)) h = none :=
  ⟨by decide, drain_sorted 5 [3, 8, 1] 5 (by decide)⟩

/-! ## Failures of `insert` and `modify_key`, and `delete_min` on the empty heap -/

/-- C8 (the code departs from the claim): `insert` on the empty heap fails.  After create 5
and `delete_min` the handle is the empty heap (no key, no children), and `insert` of any
key on it fails, because `merge` reads the absent key of its receiver. -/
theorem insert_on_empty_fails :
    run (singleton 5) [Op.delete_min] = some emptyHeap ∧
    (∀ v : Int, insert emptyHeap v = none) ∧
    run (singleton 5) [Op.delete_min, Op.insert 3] = none := by
  refine ⟨?_, ?_, ?_⟩
  · simp [run, step, delete_min, merge, swap_pointers, singleton, emptyHeap]
  · intro v
    simp [insert, emptyHeap, singleton, merge]
  · simp [run, step, insert, delete_min, merge, swap_pointers, singleton]

/-- C9 (the code departs from the claim): `modify_key` fails on the claim's own scenario.
The heap built by create 3; insert 1; insert 8; insert 5 is heap-ordered, has keys
1, 3, 5, 8 and the leaf 8 as right child of its root; `modify_key` with new value 2 and that
leaf as target fails: `delete_min` leaves the target linked without a key, and the `merge`
of the following `insert` reads that absent key.  It fails in the same way on the heap of
the single key 5 with the root as target. -/
theorem modify_key_leaf_fails :
    run (singleton 3) [Op.insert 1, Op.insert 8, Op.insert 5] = some sampleT ∧
    keys sampleT = {1, 3, 5, 8} ∧ heapOrder sampleT = true ∧ wellFormed sampleT = true ∧
    subtree_at sampleT [Dir.R] = some (singleton 8) ∧
    delete_min_at sampleT [Dir.R]
      = some (node (some 1) (node (some 3) (singleton 5) null) emptyHeap) ∧
    modify_key sampleT 2 [Dir.R] = none ∧
    modify_key (singleton 5) 7 [] = none := by
  refine ⟨?_, by decide, by decide, by decide, by decide, ?_, ?_, ?_⟩
  · simp [run, step, insert, merge, swap_pointers, singleton, sampleT]
  · simp [delete_min_at, delete_min, merge, swap_pointers, singleton, sampleT, emptyHeap]
  · simp [modify_key, delete_min_at, delete_min, insert, merge, swap_pointers, singleton,
      sampleT]
  · simp [modify_key, delete_min_at, delete_min, insert, merge, swap_pointers, singleton]

/-- C10 (as amended): `delete_min` on an empty heap returns normally and leaves the heap
state unchanged.  For every handle without a key that satisfies the emptiness invariant,
`delete_min` returns the same state; no error is signalled. -/
theorem delete_min_empty_returns (h : Heap) (hobj : h ≠ null) (hempty : min h = none)
    (hinv : emptinessInv h = true) : delete_min h = some h := by
  cases h with
  | null => exact absurd rfl hobj
  | node k l r =>
    simp only [min] at hempty
    subst hempty
    obtain ⟨_, _, hc⟩ := emptinessInv_children none l r hinv
    obtain ⟨rfl, rfl⟩ := hc rfl
    simp [delete_min, merge, swap_pointers]

theorem delete_min_empty_returns_witness :
    emptyHeap ≠ null ∧ min emptyHeap = none ∧ emptinessInv emptyHeap = true ∧
    delete_min emptyHeap = some emptyHeap :=
  ⟨by decide, by decide, by decide,
    delete_min_empty_returns emptyHeap (by decide) (by decide) (by decide)⟩

/-- C10 (counterexample to the claim as stated): after create 5 and `delete_min` the heap is
empty, and a further `delete_min` does not fail. -/
theorem delete_min_empty_no_error :
    run (singleton 5) [Op.delete_min] = some emptyHeap ∧
    ¬ (delete_min emptyHeap = none) ∧
    ¬ (run (singleton 5) [Op.delete_min, Op.delete_min] = none) := by
  refine ⟨?_, ?_, ?_⟩
  · simp [run, step, delete_min, merge, swap_pointers, singleton, emptyHeap]
  · simp [delete_min, merge, swap_pointers, emptyHeap]
  · simp [run, step, delete_min, merge, swap_pointers, singleton]

/-! ## Lemmas for the reading operations and the reachable states -/

theorem step_ne_null (h h2 : Heap) (o : Op) (hs : step h o = some h2) : h2 ≠ null := by
  have key : ∀ this temp : Heap, swap_pointers this temp = some h2 → h2 ≠ null := by
    intro this temp hsw
    cases this with
    | null => simp [swap_pointers] at hsw
    | node k l r =>
      cases temp <;> simp [swap_pointers] at hsw <;> subst hsw <;> simp
  have hins : ∀ (t : Heap) (v : Int), insert t v = some h2 → h2 ≠ null := by
    intro t v hi
    obtain ⟨_, temp, _, hsw⟩ := insert_spec t v h2 hi
    exact key _ _ hsw
  cases o with
  | insert v => exact hins h v hs
  | delete_min =>
    cases h with
    | null => simp [step, delete_min] at hs
    | node k l r =>
      obtain ⟨temp, _, hsw⟩ := delete_min_spec k l r h2 hs
      exact key _ _ hsw
  | modify_key v p =>
    simp only [step, modify_key] at hs
    cases hd : delete_min_at h p with
    | none => simp [hd] at hs
    | some t =>
      simp only [hd] at hs
      exact hins t v hs

theorem run_ne_null (ops : List Op) :
    ∀ (h h2 : Heap), h ≠ null → run h ops = some h2 → h2 ≠ null := by
  induction ops with
  | nil =>
    intro h h2 hne hr
    simp only [run, Option.some.injEq] at hr
    subst hr
    exact hne
  | cons o os ih =>
    intro h h2 _ hr
    simp only [run] at hr
    cases hs : step h o with
    | none => simp [hs] at hr
    | some h1 =>
      simp only [hs] at hr
      exact ih h1 h2 (step_ne_null h h1 o hs) hr

theorem min_none_iff_keys (h : Heap) (hne : h ≠ null) (he : emptinessInv h = true) :
    min h = none ↔ keys h = 0 := by
  cases h with
  | null => exact absurd rfl hne
  | node k l r =>
    cases k with
    | none =>
      obtain ⟨_, _, hc⟩ := emptinessInv_children none l r he
      obtain ⟨rfl, rfl⟩ := hc rfl
      simp [min, keys]
    | some a => simp [min, keys]

/-! ## Reading the minimum -/

/-- C11 (as amended): in every state of a session, `min` returns exactly when the heap is
non-empty, and then it returns the key at the root, which is one of the keys of the heap,
and leaves the heap as it was; on the empty heap, where the root key is absent and no key
is held, it signals no error: the call dereferences the `NULL` key and does not return,
so that no state of the heap is handed back. -/
theorem min_returns_iff_nonempty (k0 : Int) (ops : List Op) (h : Heap)
    (hrun : run (singleton k0) ops = some h) :
    (keys h ≠ 0 → ∃ a, rootKey h = some a ∧ a ∈ keys h ∧ min_call h = some (a, h)) ∧
    (keys h = 0 → rootKey h = none ∧ min_call h = none) := by
  have hne : h ≠ null := run_ne_null ops (singleton k0) h (by simp [singleton]) hrun
  have he : emptinessInv h = true :=
    (inv_run ops (singleton k0) h hrun (by simp [singleton, heapOrder, childOk, rootKey])
      (by simp [singleton, emptinessInv])).2
  have hiff := min_none_iff_keys h hne he
  constructor
  · intro hk
    cases hm : min h with
    | none => exact absurd (hiff.1 hm) hk
    | some a =>
      cases h with
      | null => exact absurd rfl hne
      | node k l r =>
        simp only [min] at hm
        subst hm
        exact ⟨a, rfl, by simp [keys], by simp [min_call, min]⟩
  · intro hk
    have hm : min h = none := hiff.2 hk
    refine ⟨?_, by simp [min_call, hm]⟩
    cases h with
    | null => rfl
    | node k l r => simpa [min, rootKey] using hm

theorem min_returns_iff_nonempty_witness :
    (run (singleton 5) [Op.insert 3, Op.insert 8] = some (node (some 3) (singleton 8) (singleton 5)) ∧
      keys (node (some 3) (singleton 8) (singleton 5)) ≠ 0 ∧
      ∃ a, rootKey (node (some 3) (singleton 8) (singleton 5)) = some a ∧
        a ∈ keys (node (some 3) (singleton 8) (singleton 5)) ∧
        min_call (node (some 3) (singleton 8) (singleton 5))
          = some (a, node (some 3) (singleton 8) (singleton 5))) ∧
    (run (singleton 5) [Op.insert 3, Op.delete_min, Op.delete_min] = some emptyHeap ∧
      keys emptyHeap = 0 ∧ rootKey emptyHeap = none ∧ min_call emptyHeap = none) :=
  ⟨⟨by simp [run, step, insert, merge, swap_pointers, singleton],
      by decide,
      (min_returns_iff_nonempty 5 [Op.insert 3, Op.insert 8] _
        (by simp [run, step, insert, merge, swap_pointers, singleton])).1 (by decide)⟩,
    ⟨by simp [run, step, insert, delete_min, merge, swap_pointers, singleton, emptyHeap],
      by decide,
      (min_returns_iff_nonempty 5 [Op.insert 3, Op.delete_min, Op.delete_min] emptyHeap
        (by simp [run, step, insert, delete_min, merge, swap_pointers, singleton, emptyHeap])).2
        (by decide)⟩⟩

/-- C11 (counterexample to the claim as stated): after create 5 and `delete_min` the heap is
empty, and `min` on it does not fail with an error that leaves the heap unchanged: the
call reads the `NULL` key and does not return, so it hands back no value and no heap. -/
theorem min_on_empty_does_not_return :
    run (singleton 5) [Op.delete_min] = some emptyHeap ∧
    min emptyHeap = none ∧
    min_call emptyHeap = none ∧
    ¬ (∃ r : Int, min_call emptyHeap = some (r, emptyHeap)) ∧
    ¬ (∃ (r : Int) (s : Heap), min_call emptyHeap = some (r, s)) := by
  refine ⟨?_, by decide, by decide, ?_, ?_⟩
  · simp [run, step, delete_min, merge, swap_pointers, singleton, emptyHeap]
  · simp [min_call, min, emptyHeap]
  · simp [min_call, min, emptyHeap]

/-! ## Merge with an empty operand -/

/-- C12 (the code departs from the claim): merging with the absent subtree (`NULL`) is the
identity on either side, for every heap; but merging a heap with the keyless heap that
remains after the last key is extracted fails on either side, because `merge` reads the
absent key.  After create 5 and `delete_min` the handle is that keyless heap. -/
theorem merge_empty_identity :
    (∀ A : Heap, merge A null = some A ∧ merge null A = some A) ∧
    run (singleton 5) [Op.delete_min] = some emptyHeap ∧
    (∀ A : Heap, A ≠ null → merge A emptyHeap = none ∧ merge emptyHeap A = none) ∧
    merge (singleton 3) emptyHeap = none ∧ merge emptyHeap (singleton 3) = none := by
  refine ⟨fun A => ⟨merge_null_right A, merge_null_left A⟩, ?_, ?_, ?_, ?_⟩
  · simp [run, step, delete_min, merge, swap_pointers, singleton, emptyHeap]
  · intro A hA
    cases A with
    | null => exact absurd rfl hA
    | node k l r => exact ⟨merge_nokey_right k l r null null, merge_nokey_left null null k l r⟩
  · simp [merge, singleton, emptyHeap]
  · simp [merge, singleton, emptyHeap]

/-! ## The navigation accessors -/

/-- C13 (the code departs from the claim): `get_right` returns the left child.  On every
node both accessors return the left child; on the heap with root 1, left subtree
3 over 5 and right child 8, `get_right` returns the subtree of 3, not the leaf 8, and
the path made of one right step does not locate the node at that position. -/
theorem get_right_returns_left :
    (∀ (k : Option Int) (l r : Heap),
      get_left (node k l r) = some l ∧ get_right (node k l r) = some l) ∧
    subtree_at sampleT [Dir.R] = some (singleton 8) ∧
    get_right sampleT = some (node (some 3) (singleton 5) null) ∧
    navigate sampleT [Dir.R] = some (node (some 3) (singleton 5) null) ∧
    navigate sampleT [Dir.R] ≠ subtree_at sampleT [Dir.R] := by
  refine ⟨fun k l r => ⟨rfl, rfl⟩, by decide, by decide, by decide, by decide⟩

/-! ## `modify_key` on a heap of one node -/

/-- C17 (the code departs from the claim): `modify_key` on a heap of a single node, with
that node as target, fails for every key and every new value.  `delete_min` leaves the
handle without a key, and the `merge` of the following `insert` reads that absent key. -/
theorem modify_key_single_fails (k v : Int) :
    delete_min (singleton k) = some emptyHeap ∧ insert emptyHeap v = none ∧
    modify_key (singleton k) v [] = none := by
  refine ⟨?_, ?_, ?_⟩
  · simp [delete_min, merge, swap_pointers, singleton, emptyHeap]
  · simp [insert, merge, singleton, emptyHeap]
  · simp [modify_key, delete_min_at, delete_min, insert, merge, swap_pointers, singleton]

/-! ## The emptiness invariant -/

/-- C18: in every state reached from a created heap by `insert`, `delete_min` and
`modify_key` commands, every node without a key has both children absent; and
`delete_min` on a heap of a single node leaves the handle with key, left and right all
absent. -/
theorem emptiness_invariant (k : Int) (ops : List Op) (h : Heap)
    (hrun : run (singleton k) ops = some h) :
    emptinessInv h = true ∧ delete_min (singleton k) = some (node none null null) := by
  refine ⟨(inv_run ops (singleton k) h hrun (by simp [singleton, heapOrder, childOk, rootKey])
      (by simp [singleton, emptinessInv])).2, ?_⟩
  simp [delete_min, merge, swap_pointers, singleton]

theorem emptiness_invariant_witness :
    run (singleton 1) [Op.insert 8, Op.modify_key 9 [Dir.L], Op.insert 0, Op.delete_min]
      = some (node (some 1) (singleton 9) emptyHeap) ∧
    emptinessInv (node (some 1) (singleton 9) emptyHeap) = true ∧
    delete_min (singleton 1) = some (node none null null) :=
  ⟨by simp [run, step, insert, delete_min, modify_key, delete_min_at, merge, swap_pointers,
      singleton, emptyHeap],
    emptiness_invariant 1 [Op.insert 8, Op.modify_key 9 [Dir.L], Op.insert 0, Op.delete_min] _
      (by simp [run, step, insert, delete_min, modify_key, delete_min_at, merge, swap_pointers,
        singleton, emptyHeap])⟩

/-! ## `modify_key` and well-formedness -/

/-- C20: `modify_key` does not preserve well-formedness.  After create 1 and insert 8 the
heap is well-formed and the left child of the root is the leaf 8; `modify_key` with new
value 9 and that leaf as target completes, and leaves the target linked in the tree as a
node without a key (here as right child of the root), so the heap is not well-formed; the
following insert 10 fails, its `merge` reading that absent key. -/
theorem modify_key_breaks_wellFormed :
    run (singleton 1) [Op.insert 8] = some (node (some 1) (singleton 8) null) ∧
    wellFormed (node (some 1) (singleton 8) null) = true ∧
    subtree_at (node (some 1) (singleton 8) null) [Dir.L] = some (singleton 8) ∧
    modify_key (node (some 1) (singleton 8) null) 9 [Dir.L]
      = some (node (some 1) (singleton 9) emptyHeap) ∧
    wellFormed (node (some 1) (singleton 9) emptyHeap) = false ∧
    insert (node (some 1) (singleton 9) emptyHeap) 10 = none ∧
    run (singleton 1) [Op.insert 8, Op.modify_key 9 [Dir.L], Op.insert 10] = none := by
  refine ⟨?_, by decide, by decide, ?_, by decide, ?_, ?_⟩
  · simp [run, step, insert, merge, swap_pointers, singleton]
  · simp [modify_key, delete_min_at, delete_min, insert, merge, swap_pointers, singleton,
      emptyHeap]
  · simp [insert, merge, singleton, emptyHeap]
  · simp [run, step, modify_key, delete_min_at, delete_min, insert, merge, swap_pointers,
      singleton]

/-! ## Navigation along a path -/

theorem navigate_left (p : List Dir) :
    ∀ h : Heap, (∀ d ∈ p, d = Dir.L) → navigate h p = subtree_at h p := by
  induction p with
  | nil => intro h _; simp [navigate, subtree_at]
  | cons d p ih =>
    intro h hp
    have hd : d = Dir.L := hp d (List.mem_cons_self _ _)
    subst hd
    have hp2 : ∀ d ∈ p, d = Dir.L := fun d hd => hp d (List.mem_cons_of_mem _ hd)
    cases h with
    | null => simp [navigate, subtree_at, get_left]
    | node k l r => simpa [navigate, subtree_at, get_left] using ih l hp2

theorem subtree_at_none_iff (p : List Dir) :
    ∀ h : Heap, (∀ d ∈ p, d = Dir.L) →
      (subtree_at h p = none ↔
        ∃ q rest, p = q ++ Dir.L :: rest ∧ subtree_at h q = some null) := by
  induction p with
  | nil =>
    intro h _
    simp [subtree_at]
  | cons d p ih =>
    intro h hp
    have hd : d = Dir.L := hp d (List.mem_cons_self _ _)
    subst hd
    have hp2 : ∀ d ∈ p, d = Dir.L := fun d hd => hp d (List.mem_cons_of_mem _ hd)
    cases h with
    | null =>
      simp only [subtree_at, true_iff]
      exact ⟨[], p, rfl, rfl⟩
    | node k l r =>
      simp only [subtree_at]
      rw [ih l hp2]
      constructor
      · rintro ⟨q, rest, hq, hs⟩
        exact ⟨Dir.L :: q, rest, by simp [hq], by simpa [subtree_at] using hs⟩
      · rintro ⟨q, rest, hq, hs⟩
        cases q with
        | nil => simp [subtree_at] at hs
        | cons e q2 =>
          simp only [List.cons_append, List.cons.injEq] at hq
          obtain ⟨he, hq2⟩ := hq
          subst he
          exact ⟨q2, rest, hq2, by simpa [subtree_at] using hs⟩

/-- C14 (as amended): along a path of left steps, `navigate` returns the pointer at that
position of the tree, and it fails exactly when a step is taken from an absent (`NULL`)
node, that is, when a step other than the last leads to an absent child.  When only the
last step leads to an absent child it returns that `NULL` pointer without failing, and the
failure arises at the read of the target's key that follows.  It never modifies the
tree. -/
theorem navigate_left_paths (h : Heap) (p : List Dir) (hp : ∀ d ∈ p, d = Dir.L) :
    navigate h p = subtree_at h p ∧
    (navigate h p = none ↔
      ∃ q rest, p = q ++ Dir.L :: rest ∧ subtree_at h q = some null) ∧
    (navigate h p = some null → (navigate h p).bind min = none) ∧
    (∀ t h2, navigate_call h p = some (t, h2) → h2 = h) := by
  refine ⟨navigate_left p h hp, ?_, ?_, ?_⟩
  · rw [navigate_left p h hp]
    exact subtree_at_none_iff p h hp
  · intro hn
    simp [hn, min]
  · intro t h2 hc
    unfold navigate_call at hc
    cases hn : navigate h p with
    | none => simp [hn] at hc
    | some t2 =>
      simp only [hn, Option.some.injEq, Prod.mk.injEq] at hc
      exact hc.2.symm

theorem navigate_left_paths_witness :
    (∀ d ∈ [Dir.L, Dir.L], d = Dir.L) ∧
    navigate sampleT [Dir.L, Dir.L] = subtree_at sampleT [Dir.L, Dir.L] ∧
    (navigate sampleT [Dir.L, Dir.L] = none ↔
      ∃ q rest, [Dir.L, Dir.L] = q ++ Dir.L :: rest ∧ subtree_at sampleT q = some null) ∧
    (navigate sampleT [Dir.L, Dir.L] = some null →
      (navigate sampleT [Dir.L, Dir.L]).bind min = none) ∧
    (∀ t h2, navigate_call sampleT [Dir.L, Dir.L] = some (t, h2) → h2 = sampleT) :=
  ⟨by decide, navigate_left_paths sampleT [Dir.L, Dir.L] (by decide)⟩

/-- C14 (counterexample to the claim as stated): on the heap of the single key 5 the left
child of the root is absent, and `navigate` along one left step does not fail: it returns
the `NULL` pointer. -/
theorem navigate_absent_child_no_failure :
    subtree_at (singleton 5) [] = some (singleton 5) ∧
    get_left (singleton 5) = some null ∧
    navigate (singleton 5) [Dir.L] = some null ∧
    ¬ (navigate (singleton 5) [Dir.L] = none) := by
  refine ⟨by decide, by decide, by decide, by decide⟩

/-! ## Commutativity of `merge` over contents -/

/-- C15: `merge` is commutative over contents.  For heap-ordered `A` and `B`, any results
of `merge(A, B)` and `merge(B, A)` have the same multiset of keys and are both
heap-ordered, and both calls return when every node of `A` and `B` carries a key (first
part); the shapes may differ, as for the heap 1 over 3 and the heap of the single key 1
(second part). -/
theorem merge_comm_contents :
    (∀ A B : Heap, heapOrder A = true → heapOrder B = true →
      (∀ C D, merge A B = some C → merge B A = some D →
        keys C = keys D ∧ heapOrder C = true ∧ heapOrder D = true) ∧
      (keyed A = true → keyed B = true →
        ∃ C D, merge A B = some C ∧ merge B A = some D ∧
          keys C = keys D ∧ heapOrder C = true ∧ heapOrder D = true)) ∧
    (merge sampleC (singleton 1) = some (node (some 1) (singleton 1) (singleton 3)) ∧
      merge (singleton 1) sampleC = some (node (some 1) sampleC null) ∧
      merge sampleC (singleton 1) ≠ merge (singleton 1) sampleC) := by
  have key : ∀ A B : Heap, heapOrder A = true → heapOrder B = true →
      ∀ C D, merge A B = some C → merge B A = some D →
        keys C = keys D ∧ heapOrder C = true ∧ heapOrder D = true := by
    intro A B hA hB C D hC hD
    refine ⟨?_, (heapOrder_merge A B C hC hA hB).1, (heapOrder_merge B A D hD hB hA).1⟩
    rw [keys_merge_of_eq A B C hC, keys_merge_of_eq B A D hD, add_comm]
  refine ⟨fun A B hA hB => ⟨key A B hA hB, fun kA kB => ?_⟩, ?_, ?_, ?_⟩
  · obtain ⟨C, hC, _⟩ := keyed_merge A B kA kB
    obtain ⟨D, hD, _⟩ := keyed_merge B A kB kA
    exact ⟨C, D, hC, hD, key A B hA hB C D hC hD⟩
  · simp [merge, sampleC, singleton]
  · simp [merge, sampleC, singleton]
  · simp [merge, sampleC, singleton]

theorem merge_comm_contents_witness :
    heapOrder sampleA = true ∧ heapOrder sampleB = true ∧
    (merge sampleA sampleB
        = some (node (some 1) (node (some 2) (singleton 2) (singleton 3)) (singleton 4)) ∧
      merge sampleB sampleA
        = some (node (some 1) (node (some 2) (singleton 2) (singleton 3)) (singleton 4)) ∧
      keys (node (some 1) (node (some 2) (singleton 2) (singleton 3)) (singleton 4))
        = keys (node (some 1) (node (some 2) (singleton 2) (singleton 3)) (singleton 4)) ∧
      heapOrder (node (some 1) (node (some 2) (singleton 2) (singleton 3)) (singleton 4)) = true ∧
      heapOrder (node (some 1) (node (some 2) (singleton 2) (singleton 3)) (singleton 4)) = true) ∧
    keyed sampleA = true ∧ keyed sampleB = true ∧
    ∃ C D, merge sampleA sampleB = some C ∧ merge sampleB sampleA = some D ∧
      keys C = keys D ∧ heapOrder C = true ∧ heapOrder D = true :=
  ⟨by decide, by decide,
    ⟨by simp [merge, sampleA, sampleB, singleton],
      by simp [merge, sampleA, sampleB, singleton],
      (merge_comm_contents.1 sampleA sampleB (by decide) (by decide)).1 _ _
        (by simp [merge, sampleA, sampleB, singleton])
        (by simp [merge, sampleA, sampleB, singleton])⟩,
    by decide, by decide,
    (merge_comm_contents.1 sampleA sampleB (by decide) (by decide)).2 (by decide) (by decide)⟩

/-! ## `merge` against the algorithm of the specification -/

theorem mergeSpec_node (a b : Int) (la ra lb rb : Heap) :
    mergeSpec (node (some a) la ra) (node (some b) lb rb) =
      if a ≤ b then
        node (some a)
          (if specEmpty ra = false then mergeSpec (node (some b) lb rb) ra
            else node (some b) lb rb) la
      else
        node (some b)
          (if specEmpty rb = false then mergeSpec (node (some a) la ra) rb
            else node (some a) la ra) lb := by
  rw [mergeSpec]

theorem merge_eq_mergeSpec (this other : Heap) :
    ∀ C, rootKey this ≠ none → rootKey other ≠ none → merge this other = some C →
      C = mergeSpec this other := by
  induction this, other using merge.induct with
  | case1 other => intro C h; simp [rootKey] at h
  | case2 k l r => intro C _ h; simp [rootKey] at h
  | case3 l r k l2 r2 => intro C h; simp [rootKey] at h
  | case4 a l r l2 r2 => intro C _ h; simp [rootKey] at h
  | case5 a tl tr b ol or hab ih =>
    intro C h1 _ h
    rw [merge_gt _ _ _ _ _ _ hab] at h
    rw [mergeSpec_node, if_neg (by omega)]
    by_cases hor : or = null
    · subst hor
      simp at h
      subst h
      simp [specEmpty, rootKey]
    · simp only [ne_eq, hor, not_false_eq_true, if_true, Option.map_eq_some'] at h
      obtain ⟨m, hm, rfl⟩ := h
      cases or with
      | null => exact absurd rfl hor
      | node k l r =>
        cases k with
        | none => simp [merge_nokey_right] at hm
        | some c =>
          rw [ih m h1 (by simp [rootKey]) hm]
          simp [specEmpty, rootKey]
  | case6 a tl tr b ol or hab ih =>
    intro C _ h2 h
    rw [merge_le _ _ _ _ _ _ hab] at h
    rw [mergeSpec_node, if_pos (by omega)]
    by_cases htr : tr = null
    · subst htr
      simp at h
      subst h
      simp [specEmpty, rootKey]
    · simp only [ne_eq, htr, not_false_eq_true, if_true, Option.map_eq_some'] at h
      obtain ⟨m, hm, rfl⟩ := h
      cases tr with
      | null => exact absurd rfl htr
      | node k l r =>
        cases k with
        | none => simp [merge_nokey_right] at hm
        | some c =>
          rw [ih m h2 (by simp [rootKey]) hm]
          simp [specEmpty, rootKey]

/-- Agreement of `merge` with the algorithm of the specification away from keyless nodes:
for `A` and `B` with a key at the root, every result of `merge(A, B)` is the heap the
specification's algorithm gives, and `merge` returns it when every node of `A` and `B`
carries a key. -/
theorem merge_refines_spec (A B : Heap) (hA : rootKey A ≠ none) (hB : rootKey B ≠ none) :
    (∀ C, merge A B = some C → C = mergeSpec A B) ∧
    (keyed A = true → keyed B = true → merge A B = some (mergeSpec A B)) := by
  refine ⟨fun C hC => merge_eq_mergeSpec A B C hA hB hC, fun kA kB => ?_⟩
  obtain ⟨C, hC, _⟩ := keyed_merge A B kA kB
  rw [hC, merge_eq_mergeSpec A B C hA hB hC]

theorem merge_refines_spec_witness :
    rootKey sampleA ≠ none ∧ rootKey sampleB ≠ none ∧
    (merge sampleA sampleB
        = some (node (some 1) (node (some 2) (singleton 2) (singleton 3)) (singleton 4)) ∧
      node (some 1) (node (some 2) (singleton 2) (singleton 3)) (singleton 4)
        = mergeSpec sampleA sampleB) ∧
    keyed sampleA = true ∧ keyed sampleB = true ∧
    merge sampleA sampleB = some (mergeSpec sampleA sampleB) :=
  ⟨by decide, by decide,
    ⟨by simp [merge, sampleA, sampleB, singleton],
      (merge_refines_spec sampleA sampleB (by decide) (by decide)).1 _
        (by simp [merge, sampleA, sampleB, singleton])⟩,
    by decide, by decide,
    (merge_refines_spec sampleA sampleB (by decide) (by decide)).2 (by decide) (by decide)⟩

/-- C16 (the code departs from the claim): `merge` is not the recursive definition of the
specification when the right child of the smaller root is an empty (keyless) node.  After
create 1; insert 8; `modify_key` with new value 9 on the left child, the heap `A` has root
1, left child 9 and a keyless right child.  With `B` the heap of the single key 10 both are
non-empty, `S` is `A` and `S.right` is empty, so the definition gives root 1, left child
`B` itself and right child 9; the code tests the pointer, not the key, calls `merge` on
the keyless node and fails on its absent key. -/
theorem merge_departs_from_spec :
    run (singleton 1) [Op.insert 8, Op.modify_key 9 [Dir.L]] = some sampleK ∧
    rootKey sampleK = some 1 ∧ rootKey (singleton 10) = some 10 ∧
    subtree_at sampleK [Dir.R] = some emptyHeap ∧ specEmpty emptyHeap = true ∧
    mergeSpec sampleK (singleton 10) = node (some 1) (singleton 10) (singleton 9) ∧
    merge sampleK (singleton 10) = none ∧
    merge (singleton 10) emptyHeap = none := by
  refine ⟨?_, by decide, by decide, by decide, by decide, ?_, ?_, ?_⟩
  · simp [run, step, modify_key, delete_min_at, delete_min, insert, merge, swap_pointers,
      singleton, sampleK, emptyHeap]
  · simp [mergeSpec, specEmpty, rootKey, sampleK, singleton, emptyHeap]
  · simp [merge, sampleK, singleton, emptyHeap]
  · simp [merge, singleton, emptyHeap]

/-! ## Well-formedness -/

theorem neverEmpties_run (ops : List Op) :
    ∀ (n : Nat) (h : Heap), wellFormed h = true → Multiset.card (keys h) = n →
      neverEmpties n ops = true → ∃ h2, run h ops = some h2 ∧ wellFormed h2 = true := by
  induction ops with
  | nil => intro n h hw _ _; exact ⟨h, rfl, hw⟩
  | cons o os ih =>
    intro n h hw hn hs
    cases o with
    | insert v =>
      simp only [neverEmpties] at hs
      obtain ⟨h1, hi, hw1⟩ := insert_wellFormed h v hw
      have hc : Multiset.card (keys h1) = n + 1 := by
        rw [keys_insert h v h1 hi, Multiset.card_cons, hn]
      obtain ⟨h2, hr, hw2⟩ := ih (n + 1) h1 hw1 hc hs
      exact ⟨h2, by simp [run, step, hi, hr], hw2⟩
    | delete_min =>
      simp only [neverEmpties, Bool.and_eq_true, decide_eq_true_eq] at hs
      obtain ⟨_, k, l, r, rfl⟩ := wellFormed_node h hw
      obtain ⟨_, h1, _, hd, hg⟩ := delete_min_wellFormed _ hw
      have hk : keys h1 = keys l + keys r := keys_delete_min _ l r h1 hd
      have hc : Multiset.card (keys h1) = n - 1 := by
        rw [hk]
        simp only [keys, Multiset.card_cons] at hn
        omega
      have hw1 : wellFormed h1 = true := by
        rcases hg with rfl | hw1
        · simp [keys_emptyHeap] at hc
          omega
        · exact hw1
      obtain ⟨h2, hr, hw2⟩ := ih (n - 1) h1 hw1 hc hs.2
      exact ⟨h2, by simp [run, step, hd, hr], hw2⟩
    | modify_key v p => simp [neverEmpties] at hs

/-- C19: well-formedness (the root and every linked node carry a key) is preserved by
`insert` and by `delete_min` on a heap with at least two keys, both of which return;
`merge` returns, reading no absent key, when every node of both operands carries a key;
and every sequence of `insert`s and of `delete_min`s that never remove the last key
completes on a created heap, in a well-formed state. -/
theorem wellFormed_preserved :
    (∀ (h : Heap) (v : Int), wellFormed h = true →
      ∃ h2, insert h v = some h2 ∧ wellFormed h2 = true) ∧
    (∀ h : Heap, wellFormed h = true → 2 ≤ Multiset.card (keys h) →
      ∃ h2, delete_min h = some h2 ∧ wellFormed h2 = true) ∧
    (∀ A B : Heap, keyed A = true → keyed B = true →
      ∃ C, merge A B = some C ∧ keyed C = true) ∧
    (∀ (k : Int) (ops : List Op), neverEmpties 1 ops = true →
      ∃ h, run (singleton k) ops = some h ∧ wellFormed h = true) := by
  refine ⟨insert_wellFormed, ?_, ?_, ?_⟩
  · intro h hw hc
    obtain ⟨_, k, l, r, rfl⟩ := wellFormed_node h hw
    obtain ⟨_, h1, _, hd, hg⟩ := delete_min_wellFormed _ hw
    refine ⟨h1, hd, ?_⟩
    rcases hg with rfl | hw1
    · have hk := keys_delete_min _ l r _ hd
      rw [keys_emptyHeap] at hk
      simp only [keys, Multiset.card_cons, ← hk, Multiset.card_zero] at hc
      omega
    · exact hw1
  · intro A B kA kB
    obtain ⟨C, hC, kC, _⟩ := keyed_merge A B kA kB
    exact ⟨C, hC, kC⟩
  · intro k ops hs
    exact neverEmpties_run ops 1 (singleton k) (by simp [singleton, wellFormed, keyed])
      (by simp [singleton, keys]) hs

theorem wellFormed_preserved_witness :
    (wellFormed sampleA = true ∧ ∃ h2, insert sampleA 3 = some h2 ∧ wellFormed h2 = true) ∧
    (2 ≤ Multiset.card (keys sampleA) ∧
      ∃ h2, delete_min sampleA = some h2 ∧ wellFormed h2 = true) ∧
    (keyed sampleA = true ∧ keyed sampleB = true ∧
      ∃ C, merge sampleA sampleB = some C ∧ keyed C = true) ∧
    (neverEmpties 1 [Op.insert 3, Op.insert 8, Op.delete_min, Op.delete_min, Op.insert 0] = true ∧
      ∃ h, run (singleton 5)
          [Op.insert 3, Op.insert 8, Op.delete_min, Op.delete_min, Op.insert 0] = some h ∧
        wellFormed h = true) :=
  ⟨⟨by decide, wellFormed_preserved.1 sampleA 3 (by decide)⟩,
    ⟨by decide, wellFormed_preserved.2.1 sampleA (by decide) (by decide)⟩,
    ⟨by decide, by decide, wellFormed_preserved.2.2.1 sampleA sampleB (by decide) (by decide)⟩,
    ⟨by decide, wellFormed_preserved.2.2.2 5 _ (by decide)⟩⟩

end SkewHeap
